import Mathlib

/-!
Verification of the ragstral indexing pipeline (src/indexer).

Shallow embedding of the pure control flow of:
 * `EmbeddingService._get_embeddings_batch` (truncation pass, batch packing,
   sequential batch submission with pacing and abort-on-error),
 * `EmbeddingService.run` (chunk-id parsing and the success check),
 * `CodePreprocessor._chunk_corpus` (chunk-id construction, zero-chunk fallback),
 * `run_pipeline` / `download_repo` (per-tag loop and fetch-failure behaviour).

Python `float` arithmetic on token estimates is modelled with exact
rationals (`1.3` becomes `13/10`); dictionaries built in insertion order are
modelled as ordered association lists; the external tokenizer and the
embedding provider are abstract parameters.
-/

/-- Abstract model of a tokenizer (`Tekkenizer`): `encode` maps a text to its
token sequence (with `bos=False, eos=False`), `decode` maps tokens back to
text.  Token ids are natural numbers. -/
structure Tokenizer where
  encode : String → List Nat
  decode : List Nat → String

/-- One step of the truncation pass of `_get_embeddings_batch`
(embedding_service.py lines 158-169): a text whose token count is at most
`maxSeq` is kept as is, otherwise the first `maxSeq` tokens are decoded back
to text. -/
def truncateText (tk : Tokenizer) (maxSeq : Nat) (text : String) : String :=
  let tokens := tk.encode text
  if tokens.length ≤ maxSeq then text
  else tk.decode (tokens.take maxSeq)

/-- The whole first loop of `_get_embeddings_batch` (lines 155-172) building
`valid_texts`: with a tokenizer every text is (possibly) truncated; with no
tokenizer every text is appended unchanged. -/
def validTexts (tk : Option Tokenizer) (maxSeq : Nat) (texts : List String) :
    List String :=
  match tk with
  | some t => texts.map (truncateText t maxSeq)
  | none => texts

/-- Number of whitespace-separated words of a string, i.e. `len(text.split())`
in Python: counts maximal runs of non-whitespace characters. -/
def pyWordCount (s : String) : Nat :=
  go s.data false
where
  go : List Char → Bool → Nat
    | [], _ => 0
    | c :: rest, inWord =>
      if c.isWhitespace then go rest false
      else (if inWord then 0 else 1) + go rest true

/-- The heuristic token estimate used when no tokenizer is available
(embedding_service.py line 188): `len(text.split()) * 1.3`, a Python float
modelled as the exact rational `13/10` multiple. -/
def heuristicTokenCount (s : String) : ℚ :=
  (pyWordCount s : ℚ) * (13 / 10)

/-- The per-text token count used by the packing loop
(embedding_service.py lines 183-188): exact tokenizer count when available,
otherwise the heuristic estimate. -/
def countFn (tk : Option Tokenizer) : String → ℚ :=
  match tk with
  | some t => fun s => ((t.encode s).length : ℚ)
  | none => heuristicTokenCount

/-- The packing loop of `_get_embeddings_batch` (lines 177-205), with the
mutable `current_batch` / `current_batch_tokens` made explicit.  For each
item: if the current batch is full or adding the item would exceed the token
budget, the current batch is flushed when non-empty; then the item is
appended to the (possibly fresh) current batch and the running sum updated. -/
def packGo (cnt : α → ℚ) (maxBatch : Nat) (maxTotal : ℚ) :
    List α → List α → ℚ → List (List α)
  | [], cur, _ => if cur.isEmpty then [] else [cur]
  | t :: rest, cur, tok =>
    if maxBatch ≤ cur.length ∨ maxTotal < tok + cnt t then
      if cur.isEmpty then packGo cnt maxBatch maxTotal rest [t] (tok + cnt t)
      else cur :: packGo cnt maxBatch maxTotal rest [t] (cnt t)
    else packGo cnt maxBatch maxTotal rest (cur ++ [t]) (tok + cnt t)

/-- The batch packer: `packGo` started from an empty current batch. -/
def createBatches (cnt : α → ℚ) (maxBatch : Nat) (maxTotal : ℚ)
    (items : List α) : List (List α) :=
  packGo cnt maxBatch maxTotal items [] 0

theorem packGo_flatten (cnt : α → ℚ) (maxBatch : Nat) (maxTotal : ℚ) :
    ∀ (items cur : List α) (tok : ℚ),
      (packGo cnt maxBatch maxTotal items cur tok).flatten = cur ++ items := by
  intro items
  induction items with
  | nil =>
    intro cur tok
    cases cur <;> simp [packGo]
  | cons t rest ih =>
    intro cur tok
    by_cases hcond : maxBatch ≤ cur.length ∨ maxTotal < tok + cnt t
    · cases cur with
      | nil => simp [packGo, hcond, ih]
      | cons c cs =>
        simp only [List.length_cons] at hcond
        simp [packGo, hcond, ih]
    · simp [packGo, hcond, ih]

theorem packGo_bounds (cnt : α → ℚ) (maxBatch : Nat) (maxTotal : ℚ)
    (hmb : 1 ≤ maxBatch) :
    ∀ (items cur : List α) (tok : ℚ),
      (∀ x ∈ items, cnt x ≤ maxTotal) →
      tok = (cur.map cnt).sum →
      cur.length ≤ maxBatch →
      (cur ≠ [] → tok ≤ maxTotal) →
      ∀ b ∈ packGo cnt maxBatch maxTotal items cur tok,
        b.length ≤ maxBatch ∧ (b.map cnt).sum ≤ maxTotal := by
  intro items
  induction items with
  | nil =>
    intro cur tok hitems htok hlen hcur b hb
    cases cur with
    | nil => simp [packGo] at hb
    | cons c cs =>
      simp [packGo] at hb
      subst hb
      have hle := hcur (by simp)
      rw [htok] at hle
      exact ⟨hlen, hle⟩
  | cons t rest ih =>
    intro cur tok hitems htok hlen hcur b hb
    have ht : cnt t ≤ maxTotal := hitems t (by simp)
    have hrest : ∀ x ∈ rest, cnt x ≤ maxTotal := fun x hx => hitems x (by simp [hx])
    by_cases hcond : maxBatch ≤ cur.length ∨ maxTotal < tok + cnt t
    · cases cur with
      | nil =>
        simp only [List.map_nil, List.sum_nil] at htok
        simp [packGo, hcond] at hb
        exact ih [t] (tok + cnt t) hrest (by simp [htok]) (by simpa using hmb)
          (fun _ => by simpa [htok] using ht) b hb
      | cons c cs =>
        simp only [List.length_cons] at hcond
        simp [packGo, hcond] at hb
        rcases hb with hb | hb
        · subst hb
          have hle := hcur (by simp)
          rw [htok] at hle
          exact ⟨hlen, hle⟩
        · exact ih [t] (cnt t) hrest (by simp) (by simpa using hmb)
            (fun _ => ht) b hb
    · simp [packGo, hcond] at hb
      push_neg at hcond
      exact ih (cur ++ [t]) (tok + cnt t) hrest (by simp [htok])
        (by simp only [List.length_append, List.length_cons, List.length_nil]; omega)
        (fun _ => hcond.2) b hb

/-- C1: under the configuration contract `max_sequence_length ≤
max_total_tokens` (and a positive `max_batch_size`), every batch produced by
the packing loop of `_get_embeddings_batch` from items whose (post-truncation)
token counts are at most `max_sequence_length` satisfies both limits: its item
count is at most `max_batch_size` and the sum of its items' token counts is at
most `max_total_tokens`.  No exception is needed: even a singleton batch made
from a truncated oversized item respects both bounds. -/
theorem createBatches_respects_limits (cnt : α → ℚ) (maxBatch : Nat)
    (maxTotal maxSeq : ℚ) (items : List α)
    (hmb : 1 ≤ maxBatch) (hms : maxSeq ≤ maxTotal)
    (hcnt : ∀ x ∈ items, cnt x ≤ maxSeq) :
    ∀ b ∈ createBatches cnt maxBatch maxTotal items,
      b.length ≤ maxBatch ∧ (b.map cnt).sum ≤ maxTotal := by
  have hitems : ∀ x ∈ items, cnt x ≤ maxTotal :=
    fun x hx => le_trans (hcnt x hx) hms
  exact packGo_bounds cnt maxBatch maxTotal hmb items [] 0 hitems (by simp)
    (by simp) (by simp)

/-- Witness for C1 at Scenario A of the spec: counts `[5000, 5000, 5000]`,
`max_batch_size = 10`, `max_total_tokens = 12000`, `max_sequence_length =
8192`; the second produced batch is `[5000]` and respects both limits. -/
theorem createBatches_respects_limits_witness :
    ([(5000 : ℚ)] : List ℚ).length ≤ 10 ∧
      (([(5000 : ℚ)] : List ℚ).map id).sum ≤ 12000 :=
  createBatches_respects_limits id 10 12000 8192
    [(5000 : ℚ), 5000, 5000] (by norm_num) (by norm_num)
    (by intro x hx; fin_cases hx <;> norm_num)
    [(5000 : ℚ)] (by norm_num [createBatches, packGo])

/-- C2: the batch packer preserves the input sequence exactly: the
concatenation of all produced batches, in batch order, equals the input list
item for item (nothing reordered, dropped, duplicated or split). -/
theorem createBatches_flatten (cnt : α → ℚ) (maxBatch : Nat) (maxTotal : ℚ)
    (items : List α) :
    (createBatches cnt maxBatch maxTotal items).flatten = items := by
  simpa using packGo_flatten cnt maxBatch maxTotal items [] 0

/-- The submission loop of `_get_embeddings_batch` (embedding_service.py
lines 207-226).  `provider` models one `client.embeddings.create` call
(`none` = the call raised).  `acc` is the mutable `all_embeddings`
accumulator.  The result records, in order: the returned embedding list
(empty on any failure, discarding the accumulator, as the early
`return []` does), the trace of batches actually submitted to the provider,
and the number of `time.sleep` pacing delays executed (one after each
successful batch). -/
def processBatches (provider : List α → Option (List β)) :
    List (List α) → List β → List β × List (List α) × Nat
  | [], acc => (acc, [], 0)
  | b :: rest, acc =>
    match provider b with
    | none => ([], [b], 0)
    | some embs =>
      let r := processBatches provider rest (acc ++ embs)
      (r.1, b :: r.2.1, r.2.2 + 1)

/-- The success check of `EmbeddingService.run` (embedding_service.py
lines 114-116): the run reports success only when the embedding list is
non-empty and its length matches the number of input texts. -/
def runReportsSuccess (embs : List β) (nTexts : Nat) : Bool :=
  !embs.isEmpty && embs.length == nTexts

/-- C3: if the provider fails on some batch, the whole run fails with an
empty aggregate (no partial result), the submission trace stops at the
failing batch (no later batch is ever submitted to the provider), and
`run`'s success check reports failure for any input size. -/
theorem processBatches_abort (provider : List α → Option (List β))
    (pre suf : List (List α)) (b : List α) (acc : List β) (nTexts : Nat)
    (hpre : ∀ x ∈ pre, (provider x).isSome = true) (hb : provider b = none) :
    (processBatches provider (pre ++ b :: suf) acc).1 = [] ∧
      (processBatches provider (pre ++ b :: suf) acc).2.1 = pre ++ [b] ∧
      runReportsSuccess (processBatches provider (pre ++ b :: suf) acc).1
        nTexts = false := by
  induction pre generalizing acc with
  | nil => simp [processBatches, hb, runReportsSuccess]
  | cons p ps ih =>
    have hp : (provider p).isSome = true := hpre p (by simp)
    obtain ⟨e, he⟩ := Option.isSome_iff_exists.mp hp
    have hps : ∀ x ∈ ps, (provider x).isSome = true :=
      fun x hx => hpre x (by simp [hx])
    have := ih (acc ++ e) hps
    simp only [List.cons_append, processBatches, he] at *
    exact ⟨this.1, by simp [this.2.1], by simp [runReportsSuccess, this.1]⟩

/-- Witness for C3 at Scenario D of the spec: three batches, the provider
raises on batch 2 → the aggregate is empty, only batches 1 and 2 were
submitted (batch 3 never), and the run reports failure. -/
theorem processBatches_abort_witness :
    (processBatches (fun bt : List Nat => if bt = [2] then none else some bt)
        [[1], [2], [3]] []).1 = [] ∧
      (processBatches (fun bt : List Nat => if bt = [2] then none else some bt)
        [[1], [2], [3]] []).2.1 = [[1]] ++ [[2]] ∧
      runReportsSuccess
        (processBatches (fun bt : List Nat => if bt = [2] then none else some bt)
          [[1], [2], [3]] []).1 3 = false :=
  processBatches_abort (fun bt : List Nat => if bt = [2] then none else some bt)
    [[1]] [[3]] [2] [] 3 (by decide) (by decide)

/-- C7 (amended): the pacing delay is executed after every successful batch
submission, including the final one: a run over `n` batches that all succeed
performs exactly `n` delays (not `n - 1`). -/
theorem processBatches_delay_count (provider : List α → Option (List β))
    (bs : List (List α)) (acc : List β)
    (h : ∀ x ∈ bs, (provider x).isSome = true) :
    (processBatches provider bs acc).2.2 = bs.length := by
  induction bs generalizing acc with
  | nil => simp [processBatches]
  | cons b rest ih =>
    have hb : (provider b).isSome = true := h b (by simp)
    obtain ⟨e, he⟩ := Option.isSome_iff_exists.mp hb
    have hrest : ∀ x ∈ rest, (provider x).isSome = true :=
      fun x hx => h x (by simp [hx])
    simp [processBatches, he, ih (acc ++ e) hrest]

/-- Counterexample to C7 as stated: a run over a single batch that succeeds
performs one pacing delay, not `1 - 1 = 0`; the delay is applied after the
final batch. -/
theorem processBatches_delay_counterexample :
    (processBatches (fun _ : List Nat => some ([] : List Nat)) [[0]] []).2.2
        = 1 ∧
      (1 : Nat) ≠ [([0] : List Nat)].length - 1 := by
  constructor <;> decide

/-- Witness for C7 (amended): two batches that both succeed → exactly two
pacing delays. -/
theorem processBatches_delay_count_witness :
    (processBatches (fun _ : List Nat => some ([] : List Nat))
      [[1], [2]] []).2.2 = 2 :=
  processBatches_delay_count (fun _ : List Nat => some ([] : List Nat))
    [[1], [2]] [] (by decide)

/-- C5: truncation is idempotent: a text whose token count is already exactly
`max_sequence_length` (e.g. the output of a previous truncation) is returned
unchanged by the truncation step. -/
theorem truncateText_idempotent (tk : Tokenizer) (maxSeq : Nat) (text : String)
    (h : (tk.encode text).length = maxSeq) :
    truncateText tk maxSeq text = text := by
  simp [truncateText, le_of_eq h]

/-- Witness for C5: a character-level tokenizer on the two-character text
`"ab"` with `max_sequence_length = 2`. -/
theorem truncateText_idempotent_witness :
    ((Tokenizer.mk (fun s => s.data.map Char.toNat) (fun _ => "")).encode
        "ab").length = 2 ∧
      truncateText (Tokenizer.mk (fun s => s.data.map Char.toNat) (fun _ => ""))
        2 "ab" = "ab" :=
  ⟨rfl, truncateText_idempotent
    (Tokenizer.mk (fun s => s.data.map Char.toNat) (fun _ => "")) 2 "ab" rfl⟩

/-- Counterexample to C6 as stated: for the one-word text `"a"` the code uses
`1 * 1.3 = 13/10`, which is not `ceil(1 * 1.3) = 2` (the heuristic count is
never rounded up to an integer). -/
theorem heuristicTokenCount_not_ceil :
    pyWordCount "a" = 1 ∧
      heuristicTokenCount "a" ≠
        ((⌈(pyWordCount "a" : ℚ) * (13 / 10)⌉ : ℤ) : ℚ) := by
  refine ⟨rfl, ?_⟩
  have h1 : pyWordCount "a" = 1 := rfl
  have h2 : (⌈((13 : ℚ) / 10)⌉ : ℤ) = 2 := by norm_num [Int.ceil_eq_iff]
  rw [heuristicTokenCount, h1]
  norm_num [h2]

/-- C6 (amended): when no tokenizer is available the token count used by the
packing loop is the unrounded value `whitespace_word_count(text) * 1.3`
(a rational, not its integer ceiling); it is always ≥ 0 and the empty string
yields 0. -/
theorem heuristicTokenCount_spec :
    countFn none = heuristicTokenCount ∧ heuristicTokenCount "" = 0 ∧
      ∀ s : String, 0 ≤ heuristicTokenCount s ∧
        heuristicTokenCount s = (pyWordCount s : ℚ) * (13 / 10) := by
  refine ⟨rfl, ?_, fun s => ⟨?_, rfl⟩⟩
  · have h : pyWordCount "" = 0 := rfl
    rw [heuristicTokenCount, h]
    norm_num
  · rw [heuristicTokenCount]
    positivity

theorem packGo_oversized_alone (cnt : α → ℚ) (mb : Nat) (mt : ℚ)
    (hpos : ∀ x, 0 ≤ cnt x) :
    ∀ (items cur : List α) (tok : ℚ),
      tok = (cur.map cnt).sum →
      (∀ x ∈ cur, mt < cnt x → cur = [x]) →
      ∀ b ∈ packGo cnt mb mt items cur tok,
        ∀ x ∈ b, mt < cnt x → b = [x] := by
  intro items
  induction items with
  | nil =>
    intro cur tok htok hcur b hb
    cases cur with
    | nil => simp [packGo] at hb
    | cons c cs =>
      simp [packGo] at hb
      subst hb
      exact hcur
  | cons t rest ih =>
    intro cur tok htok hcur b hb
    by_cases hcond : mb ≤ cur.length ∨ mt < tok + cnt t
    · cases cur with
      | nil =>
        simp only [List.map_nil, List.sum_nil] at htok
        simp [packGo, hcond] at hb
        exact ih [t] (tok + cnt t) (by simp [htok])
          (by intro x hx _; simp only [List.mem_singleton] at hx; rw [hx]) b hb
      | cons c cs =>
        simp only [List.length_cons] at hcond
        simp [packGo, hcond] at hb
        rcases hb with hb | hb
        · subst hb
          exact hcur
        · exact ih [t] (cnt t) (by simp)
            (by intro x hx _; simp only [List.mem_singleton] at hx; rw [hx]) b hb
    · simp [packGo, hcond] at hb
      push_neg at hcond
      refine ih (cur ++ [t]) (tok + cnt t) (by simp [htok]) ?_ b hb
      intro x hx hlt
      exfalso
      have hxle : cnt x ≤ tok + cnt t := by
        rcases List.mem_append.mp hx with hxc | hxt
        · have h1 : cnt x ≤ (cur.map cnt).sum :=
            List.single_le_sum (fun y _ => by
              rcases List.mem_map.mp ‹y ∈ cur.map cnt› with ⟨z, _, hz⟩
              · exact hz ▸ hpos z) (cnt x) (List.mem_map_of_mem cnt hxc)
          have h2 : 0 ≤ cnt t := hpos t
          rw [htok]
          linarith
        · simp only [List.mem_singleton] at hxt
          have h1 : 0 ≤ (cur.map cnt).sum :=
            List.sum_nonneg (fun y hy => by
              rcases List.mem_map.mp hy with ⟨z, _, hz⟩
              exact hz ▸ hpos z)
          rw [hxt, htok]
          linarith
      exact absurd (lt_of_lt_of_le hlt hxle) (not_lt.mpr hcond.2)

/-- C10: when tokenizer initialization failed (`tokenizer = None`), the
truncation pass leaves every text unmodified (no truncation is ever applied),
and in the packing loop an item whose heuristic token estimate exceeds
`max_total_tokens` always ends up alone in its batch — a singleton batch
whose token estimate exceeds `max_total_tokens`. -/
theorem noTokenizer_passthrough (maxSeq mb : Nat) (mt : ℚ)
    (texts : List String) :
    validTexts none maxSeq texts = texts ∧
      ∀ b ∈ createBatches (countFn none) mb mt texts,
        ∀ x ∈ b, mt < heuristicTokenCount x → b = [x] := by
  constructor
  · rfl
  · have hpos : ∀ s : String, 0 ≤ heuristicTokenCount s := fun s => by
      rw [heuristicTokenCount]
      positivity
    exact packGo_oversized_alone heuristicTokenCount mb mt hpos texts [] 0
      (by simp) (by simp)

/-- Witness for C10: with no tokenizer, `["a b c d", "w"]` passes through
unmodified; the first text's heuristic estimate `4 * 1.3 = 26/5` exceeds
`max_total_tokens = 1`, and it forms the singleton batch `["a b c d"]`. -/
theorem noTokenizer_passthrough_witness :
    validTexts none 5 ["a b c d", "w"] = ["a b c d", "w"] ∧
      ["a b c d"] ∈ createBatches (countFn none) 10 1 ["a b c d", "w"] ∧
      (1 : ℚ) < heuristicTokenCount "a b c d" ∧
      (["a b c d"] : List String) = ["a b c d"] := by
  have h := noTokenizer_passthrough 5 10 1 ["a b c d", "w"]
  have h1 : pyWordCount "a b c d" = 4 := rfl
  have h2 : pyWordCount "w" = 1 := rfl
  have hm : createBatches (countFn none) 10 1 ["a b c d", "w"]
      = [["a b c d"], ["w"]] := by
    norm_num [createBatches, packGo, countFn, heuristicTokenCount, h1, h2]
  have hlt : (1 : ℚ) < heuristicTokenCount "a b c d" := by
    rw [heuristicTokenCount, h1]
    norm_num
  exact ⟨h.1, by rw [hm]; simp, hlt,
    h.2 ["a b c d"] (by rw [hm]; simp) "a b c d" (by simp) hlt⟩

/-- The chunk-id marker `"_<chunk>_"`, as a character list. -/
def marker : List Char := ['_', '<', 'c', 'h', 'u', 'n', 'k', '>', '_']

/-- Chunk identifier construction of `_chunk_corpus` (code_preprocessor.py
line 247) at character level: `f"{orig_id}_<chunk>_{i}"` with the index
printed in decimal. -/
def chunkIdChars (docId : List Char) (i : Nat) : List Char :=
  docId ++ marker ++ Nat.toDigits 10 i

/-- The text before the first occurrence of `sep`, i.e. Python's
`s.split(sep)[0]`: all of `s` when `sep` does not occur. -/
def splitFirst (sep : List Char) : List Char → List Char
  | [] => []
  | c :: rest =>
    if sep.isPrefixOf (c :: rest) then [] else c :: splitFirst sep rest

/-- Contiguous-substring test, i.e. Python's `sep in s`. -/
def occursIn (pat : List Char) : List Char → Bool
  | [] => pat.isEmpty
  | c :: rest => pat.isPrefixOf (c :: rest) || occursIn pat rest

/-- Document-id recovery of `EmbeddingService.run` (embedding_service.py
lines 104-108): split on the marker when it occurs in the chunk id, else
keep the id unchanged. -/
def extractDocId (chunkId : List Char) : List Char :=
  if occursIn marker chunkId then splitFirst marker chunkId else chunkId

theorem isPrefixOf_iff_take (p s : List Char) :
    p.isPrefixOf s = true ↔ s.take p.length = p := by
  rw [ List.isPrefixOf_iff_prefix, List.prefix_iff_eq_take]
  exact eq_comm

theorem splitFirst_eq_nil (sep s : List Char) (hp : sep.isPrefixOf s = true) :
    splitFirst sep s = [] := by
  cases s with
  | nil => rfl
  | cons c rest => rw [splitFirst, if_pos hp]

theorem occursIn_of_isPrefixOf (pat s : List Char)
    (hp : pat.isPrefixOf s = true) : occursIn pat s = true := by
  cases s with
  | nil =>
    cases pat with
    | nil => rfl
    | cons a as => simp [List.isPrefixOf] at hp
  | cons c rest => simp [occursIn, hp]

/-- The decimal-index suffix of a chunk id is irrelevant to whether the
marker starts at a position inside the document id: for non-empty `t`,
testing the marker against `t ++ marker ++ idx` is the same as testing it
against `t ++ marker.take 8`. -/
theorem marker_isPrefixOf_indep (t idx : List Char) (h : t ≠ []) :
    marker.isPrefixOf (t ++ (marker ++ idx)) = true ↔
      marker.isPrefixOf (t ++ marker.take 8) = true := by
  have ht : 1 ≤ t.length := List.length_pos.mpr h
  have hmark : marker.length = 9 := rfl
  have h1 : (marker ++ idx).take (9 - t.length) = marker.take (9 - t.length) :=
    List.take_append_of_le_length (by rw [hmark]; omega)
  have h2 : (marker.take 8).take (9 - t.length) = marker.take (9 - t.length) := by
    rw [List.take_take]
    congr 1
    omega
  have lhs : (t ++ (marker ++ idx)).take 9
      = t.take 9 ++ (marker ++ idx).take (9 - t.length) :=
    List.take_append_eq_append_take
  have rhs : (t ++ marker.take 8).take 9
      = t.take 9 ++ (marker.take 8).take (9 - t.length) :=
    List.take_append_eq_append_take
  rw [isPrefixOf_iff_take, isPrefixOf_iff_take, hmark, lhs, rhs, h1, h2]

theorem splitFirst_chunkId (d idx : List Char)
    (h : occursIn marker (d ++ marker.take 8) = false) :
    splitFirst marker (d ++ (marker ++ idx)) = d := by
  induction d with
  | nil =>
    rw [List.nil_append]
    refine splitFirst_eq_nil marker (marker ++ idx) ?_
    rw [isPrefixOf_iff_take]
    exact List.take_left marker idx
  | cons c d' ih =>
    simp only [List.cons_append, occursIn, Bool.or_eq_false_iff] at h
    obtain ⟨h1, h2⟩ := h
    rw [List.cons_append, splitFirst, if_neg ?_]
    · rw [ih h2]
    · intro hp
      have hp' : marker.isPrefixOf ((c :: d') ++ marker.take 8) = true :=
        (marker_isPrefixOf_indep (c :: d') idx (by simp)).mp
          (by rw [List.cons_append]; exact hp)
      exact Bool.false_ne_true (h1.symm.trans hp')

theorem occursIn_marker_chunkId (d idx : List Char) :
    occursIn marker (d ++ (marker ++ idx)) = true := by
  induction d with
  | nil =>
    rw [List.nil_append]
    refine occursIn_of_isPrefixOf marker (marker ++ idx) ?_
    rw [isPrefixOf_iff_take]
    exact List.take_left marker idx
  | cons c d' ih =>
    rw [List.cons_append, occursIn, ih, Bool.or_true]

/-- C4 (amended): for every document identifier `d` and chunk index `i`, the
chunk identifier is `d` followed by the marker `_<chunk>_` followed by the
decimal index, and splitting on the first occurrence of the marker recovers
exactly `d` — provided the marker does not occur inside `d ++ "_<chunk>"`
(in particular whenever `d` neither contains the marker nor ends in
`"_<chunk>"`). -/
theorem chunkId_roundTrip (d : List Char) (i : Nat)
    (h : occursIn marker (d ++ marker.take 8) = false) :
    extractDocId (chunkIdChars d i) = d := by
  rw [extractDocId, chunkIdChars, List.append_assoc,
    if_pos (occursIn_marker_chunkId d (Nat.toDigits 10 i)),
    splitFirst_chunkId d (Nat.toDigits 10 i) h]

/-- Counterexample to C4 as stated: for the document id `"a_<chunk>_b"`
(which contains the marker) and index 0, the chunk id splits at the first
marker occurrence and recovers `"a"`, not the original id. -/
theorem chunkId_roundTrip_counterexample :
    extractDocId
        (chunkIdChars ['a', '_', '<', 'c', 'h', 'u', 'n', 'k', '>', '_', 'b'] 0)
      ≠ ['a', '_', '<', 'c', 'h', 'u', 'n', 'k', '>', '_', 'b'] := by
  decide

/-- Witness for C4 (amended) at the ordinary file path `"src/main.py"` and
chunk index 3. -/
theorem chunkId_roundTrip_witness :
    occursIn marker
        (['s', 'r', 'c', '/', 'm', 'a', 'i', 'n', '.', 'p', 'y']
          ++ marker.take 8) = false ∧
      extractDocId
          (chunkIdChars ['s', 'r', 'c', '/', 'm', 'a', 'i', 'n', '.', 'p', 'y'] 3)
        = ['s', 'r', 'c', '/', 'm', 'a', 'i', 'n', '.', 'p', 'y'] :=
  ⟨by decide,
    chunkId_roundTrip ['s', 'r', 'c', '/', 'm', 'a', 'i', 'n', '.', 'p', 'y'] 3
      (by decide)⟩

/-- A corpus/chunk value `{"title": ..., "text": ...}`. -/
structure ChunkDoc where
  title : String
  text : String
deriving DecidableEq

/-- Python's `str.strip()`: removes leading and trailing whitespace. -/
def pyStrip (s : String) : String :=
  ⟨((s.data.dropWhile Char.isWhitespace).reverse.dropWhile
      Char.isWhitespace).reverse⟩

/-- Processing of one corpus entry in `_chunk_corpus` (code_preprocessor.py
lines 211-251): strip title and text; skip the document when the stripped
text is empty; split the text (the splitter — language-specific or generic —
is the abstract `split` parameter, applied to title and text); when the
splitter returns no chunks, store the original document under its original
id; otherwise store each chunk under `f"{orig_id}_<chunk>_{i}"`. -/
def processDoc (split : String → String → List String)
    (entry : String × ChunkDoc) : List (String × ChunkDoc) :=
  if pyStrip entry.2.text = "" then []
  else if (split (pyStrip entry.2.title) (pyStrip entry.2.text)).isEmpty then
    [(entry.1, entry.2)]
  else
    (split (pyStrip entry.2.title) (pyStrip entry.2.text)).enum.map fun ic =>
      (entry.1 ++ "_<chunk>_" ++ toString ic.1,
        ChunkDoc.mk (pyStrip entry.2.title) ic.2)

/-- `_chunk_corpus` over the insertion-ordered corpus, as an ordered
association list. -/
def chunkCorpus (split : String → String → List String)
    (corpus : List (String × ChunkDoc)) : List (String × ChunkDoc) :=
  corpus.flatMap (processDoc split)

/-- C9 (amended): a document with non-empty (stripped) text whose splitter
returns zero chunks is not dropped: it is emitted whole, as a single entry —
but under its original document id, unchanged, not under the chunk-id
convention with index 0. -/
theorem chunkCorpus_zeroChunks (split : String → String → List String)
    (pre rest : List (String × ChunkDoc)) (origId : String) (doc : ChunkDoc)
    (htext : pyStrip doc.text ≠ "")
    (hsplit : split (pyStrip doc.title) (pyStrip doc.text) = []) :
    chunkCorpus split (pre ++ (origId, doc) :: rest)
      = chunkCorpus split pre ++ [(origId, doc)] ++ chunkCorpus split rest := by
  have hd : processDoc split (origId, doc) = [(origId, doc)] := by
    simp only [processDoc]
    rw [if_neg htext, hsplit]
    simp
  simp only [chunkCorpus]
  rw [List.flatMap_append, List.flatMap_cons, hd]
  simp

/-- Witness for C9 (amended): a one-document corpus whose splitter returns
`[]` emits exactly the original entry. -/
theorem chunkCorpus_zeroChunks_witness :
    pyStrip "x" ≠ "" ∧
      chunkCorpus (fun _ _ => ([] : List String)) [("a", ChunkDoc.mk "t" "x")]
        = [("a", ChunkDoc.mk "t" "x")] :=
  ⟨by decide,
    chunkCorpus_zeroChunks (fun _ _ => ([] : List String)) [] [] "a"
      (ChunkDoc.mk "t" "x") (by decide) rfl⟩

/-- Counterexample to C9 as stated: in the zero-chunk fallback the emitted
identifier is the original document id `"a"`, and no entry with the
chunk-convention id `"a_<chunk>_0"` exists. -/
theorem chunkCorpus_zeroChunks_counterexample :
    (chunkCorpus (fun _ _ => ([] : List String))
        [("a", ChunkDoc.mk "t" "x")]).map Prod.fst = ["a"] ∧
      ("a" ++ "_<chunk>_" ++ toString (0 : Nat)) ∉
        (chunkCorpus (fun _ _ => ([] : List String))
          [("a", ChunkDoc.mk "t" "x")]).map Prod.fst := by
  constructor <;> decide

/-- `download_repo` (github_fetcher.py lines 26-76): the whole body is one
`try`.  `fetched` abstracts the network download + ZIP extraction (`none` =
some step raised).  On success the target directory holds the extracted
files; on any failure the `except` block removes the partially written
target directory (`shutil.rmtree`) and returns `False`.  Result: (success
flag, directory state — `none` meaning the directory no longer exists). -/
def downloadRepo (fetched : Option (List String)) :
    Bool × Option (List String) :=
  match fetched with
  | some files => (true, some files)
  | none => (false, none)

/-- The per-tag loop of `run_pipeline` (pipeline.py lines 60-106): for each
tag, download, then run the remaining stages; a failed download or a failed
stage executes `return`, ending the whole loop.  The result is the list of
tags attempted, in order. -/
def runPipelineTags (download : String → Bool) (stages : String → Bool) :
    List String → List String
  | [] => []
  | t :: rest =>
    if download t then
      if stages t then t :: runPipelineTags download stages rest
      else [t]
    else [t]

theorem runPipelineTags_abort (download stages : String → Bool) :
    ∀ (pre : List String) (t : String) (rest : List String),
      (∀ x ∈ pre, download x = true ∧ stages x = true) →
      download t = false →
      runPipelineTags download stages (pre ++ t :: rest) = pre ++ [t] := by
  intro pre
  induction pre with
  | nil =>
    intro t rest _ ht
    simp [runPipelineTags, ht]
  | cons p ps ih =>
    intro t rest hpre ht
    have hp := hpre p (by simp)
    simp [runPipelineTags, hp.1, hp.2,
      ih t rest (fun x hx => hpre x (by simp [hx])) ht]

/-- C8 (amended): when fetching the archive fails for one tag, the fetcher
cleans up the partially written target directory and reports failure, the
failing tag's stages are skipped — but the pipeline aborts the entire
multi-tag run: tags before the failing one are processed and no tag after it
is ever attempted. -/
theorem fetchFailure_cleanup_and_abort (download stages : String → Bool)
    (pre rest : List String) (t : String)
    (hpre : ∀ x ∈ pre, download x = true ∧ stages x = true)
    (ht : download t = false) :
    (downloadRepo none).1 = false ∧ (downloadRepo none).2 = none ∧
      runPipelineTags download stages (pre ++ t :: rest) = pre ++ [t] :=
  ⟨rfl, rfl, runPipelineTags_abort download stages pre t rest hpre ht⟩

/-- Witness for C8 (amended): tags `["a", "b", "c"]` with the download
failing on `"b"`: only `["a", "b"]` are attempted. -/
theorem fetchFailure_cleanup_and_abort_witness :
    (downloadRepo none).1 = false ∧ (downloadRepo none).2 = none ∧
      runPipelineTags (fun x => x != "b") (fun _ => true) ["a", "b", "c"]
        = ["a", "b"] :=
  fetchFailure_cleanup_and_abort (fun x => x != "b") (fun _ => true)
    ["a"] ["c"] "b" (by decide) (by decide)

/-- Counterexample to C8 as stated: with two tags and the fetch failing on
the first, the pipeline never reaches the second tag — it does not continue
to the next tag. -/
theorem fetchFailure_counterexample :
    runPipelineTags (fun _ => (downloadRepo none).1) (fun _ => true)
        ["t1", "t2"] = ["t1"] ∧
      "t2" ∉ runPipelineTags (fun _ => (downloadRepo none).1) (fun _ => true)
        ["t1", "t2"] := by
  constructor <;> decide
